import Mathlib

/-!
Verification development for the fuuka-cata-link media bot.

Shallow embedding of the Python source under `src/`:
* `src/utils/link_detector.py` — platforms and URL query cleaning,
* `src/scrapers/base.py` — the extraction fallback chain,
* `src/utils/cache.py` — the TTL/capacity bounded result cache,
* `src/bot/middlewares.py` — the per-user rate limiter,
* `src/utils/media_handler.py` — the bounded concurrent downloader,
* `src/bot/handlers.py` — message handling and result delivery,
* `src/utils/formatters.py` — caption building.

Machine floats from `time.monotonic()` are modelled as integers (only
ordering and subtraction are used by the code); byte strings are lists of
naturals; network and Telegram effects are modelled by explicit outcome
parameters and explicit message-id counters.
-/

namespace Fuuka

/-- `Platform` from `src/utils/link_detector.py`. -/
inductive Platform where
  | twitter | youtube | instagram | tiktok | facebook | github | reddit
  deriving DecidableEq, Repr

/-- `MediaType` from `src/scrapers/base.py`. -/
inductive MediaType where
  | image | video | text | code
  deriving DecidableEq, Repr

/-- Byte strings are modelled as lists of naturals. -/
abbrev Bytes := List Nat

/-- `MediaItem` from `src/scrapers/base.py`: a single media attachment.
`data` is the downloaded content, filled by the media handler. -/
structure MediaItem where
  url : String
  media_type : MediaType
  data : Option Bytes := none
  deriving DecidableEq, Repr

/-- `ScrapedMedia` from `src/scrapers/base.py`.  The dataclass is recursive
through the optional `referenced_post`, so it is an inductive type here;
field accessors are defined below. -/
inductive ScrapedMedia where
  | mk (platform : Platform) (original_url : String)
       (author : Option String) (caption : Option String)
       (media_items : List MediaItem) (method_used : String)
       (referenced_post : Option ScrapedMedia)
       (reference_type : Option String)

def ScrapedMedia.platform : ScrapedMedia → Platform
  | .mk p _ _ _ _ _ _ _ => p

def ScrapedMedia.original_url : ScrapedMedia → String
  | .mk _ u _ _ _ _ _ _ => u

def ScrapedMedia.author : ScrapedMedia → Option String
  | .mk _ _ a _ _ _ _ _ => a

def ScrapedMedia.caption : ScrapedMedia → Option String
  | .mk _ _ _ c _ _ _ _ => c

def ScrapedMedia.media_items : ScrapedMedia → List MediaItem
  | .mk _ _ _ _ m _ _ _ => m

def ScrapedMedia.method_used : ScrapedMedia → String
  | .mk _ _ _ _ _ m _ _ => m

def ScrapedMedia.referenced_post : ScrapedMedia → Option ScrapedMedia
  | .mk _ _ _ _ _ _ r _ => r

/-- `result.method_used = method_name` in `BaseScraper.extract`: the chain
overwrites the field on whatever the method returned. -/
def ScrapedMedia.withMethodUsed : ScrapedMedia → String → ScrapedMedia
  | .mk p u a c mi _ rp rt, m => .mk p u a c mi m rp rt

/-- `ScrapedMedia.has_media` property: `len(self.media_items) > 0`. -/
def ScrapedMedia.has_media (r : ScrapedMedia) : Bool :=
  decide (0 < r.media_items.length)

/-- Replace only the platform field (used to state that the caption builder
treats every platform alike). -/
def ScrapedMedia.withPlatform : ScrapedMedia → Platform → ScrapedMedia
  | .mk _ u a c mi m rp rt, p => .mk p u a c mi m rp rt

/-! ## Extraction fallback chain (`BaseScraper.extract`) -/

/-- The terminal placeholder built when every extraction method failed:
empty items, the fixed caption, `method_used = "none"`. -/
def placeholderResult (platform : Platform) (url : String) : ScrapedMedia :=
  .mk platform url none (some "Could not extract media from this link.") [] "none" none none

/-- One extraction method, as seen by the chain: a name together with its
outcome for the given URL (`.ok` = the coroutine returned a `ScrapedMedia`,
`.error` = it raised). -/
abbrev Method := String × Except String ScrapedMedia

/-- The loop body of `BaseScraper.extract`: try each method in order,
recording (in the first component) which methods were invoked; on the first
success stamp `method_used` with the method's name and stop; if the list is
exhausted return the placeholder. -/
def runChain (platform : Platform) (url : String) : List Method → List String × ScrapedMedia
  | [] => ([], placeholderResult platform url)
  | (name, m) :: rest =>
    match m with
    | .ok r => ([name], r.withMethodUsed name)
    | .error _ =>
      let tail := runChain platform url rest
      (name :: tail.1, tail.2)

/-- `BaseScraper.extract`: the fallback chain over the fixed ordered method
list `primary`, `yt-dlp`, `browser`.  The three `Except` arguments are the
outcomes of `_primary_extract`, `_ytdlp_extract`, `_browser_extract` on the
URL.  Total by construction: the `try/except` around every method means
`extract` itself never raises. -/
def extract (platform : Platform) (url : String)
    (primary ytdlp browser : Except String ScrapedMedia) : List String × ScrapedMedia :=
  runChain platform url [("primary", primary), ("yt-dlp", ytdlp), ("browser", browser)]

/-! ## Caption building (`src/utils/formatters.py`) -/

/-- One step of Python `str.replace` restricted to a nonempty pattern
`p :: ps`: scan left to right, replacing each leftmost non-overlapping
occurrence.  The `fuel` argument only makes the recursion structural; with
`fuel` at least the list length (the only way it is called) the zero-fuel
branch is unreachable, because every step consumes at least one character
and at least as much fuel. -/
def replaceFrom (p : Char) (ps repl : List Char) : Nat → List Char → List Char
  | 0, l => l
  | fuel + 1, l =>
    match l with
    | [] => []
    | c :: rest =>
      if (p :: ps).isPrefixOf (c :: rest) then
        repl ++ replaceFrom p ps repl fuel (rest.drop ps.length)
      else
        c :: replaceFrom p ps repl fuel rest

/-- Python `s.replace(pat, repl)` for a nonempty `pat` (the only use in the
source has `pat = "x.com"`). -/
def pyReplace (s pat repl : String) : String :=
  match pat.data with
  | [] => s
  | p :: ps => String.mk (replaceFrom p ps repl.data s.data.length s.data)

/-- The URL embedded by `format_caption`:
`result.original_url.replace("x.com", "xcancel.com")`. -/
def xcancelUrl (u : String) : String :=
  pyReplace u "x.com" "xcancel.com"

/-- The `parts` list built by `format_caption`.  Python truthiness: a `None`
or empty author/caption contributes nothing. -/
def captionParts (r : ScrapedMedia) : List String :=
  (match r.author with
   | some a => if a.isEmpty then [] else [a ++ ":"]
   | none => []) ++
  (match r.caption with
   | some c => if c.isEmpty then [] else [c]
   | none => []) ++
  (if r.has_media then
    ["\n<a href=\"" ++ xcancelUrl r.original_url ++ "\">Link</a>"]
   else [])

/-- `format_caption` from `src/utils/formatters.py`. -/
def format_caption (r : ScrapedMedia) : String :=
  let parts := captionParts r
  if parts.isEmpty then r.original_url else String.intercalate "\n" parts

/-! ## Result cache (`src/utils/cache.py`)

`time.monotonic()` floats become integers supplied explicitly (`now`); the
Python dict becomes an association list in insertion order, which is exactly
the iteration order `min(...)` sees. -/

/-- `CacheEntry` from `src/utils/cache.py`. -/
structure CacheEntry where
  result : ScrapedMedia
  created_at : Int

/-- `MediaCache`: configuration plus the ordered store. -/
structure MediaCache where
  ttl : Int
  max_size : Nat
  store : List (String × CacheEntry)

/-- A fresh `MediaCache(ttl_seconds, max_size)`. -/
def MediaCache.empty (ttl : Int) (maxSize : Nat) : MediaCache :=
  ⟨ttl, maxSize, []⟩

/-- `del self._store[url]` — removal keeps the order of the rest, as a
Python dict does. -/
def eraseKey (k : String) (l : List (String × CacheEntry)) : List (String × CacheEntry) :=
  l.filter (fun kv => kv.1 ≠ k)

/-- `self._store[url] = entry`: replace in place when the key exists
(Python dicts keep the original position), append otherwise. -/
def setKey (k : String) (e : CacheEntry) : List (String × CacheEntry) → List (String × CacheEntry)
  | [] => [(k, e)]
  | (k₂, e₂) :: rest => if k₂ = k then (k, e) :: rest else (k₂, e₂) :: setKey k e rest

/-- `MediaCache.get` at explicit time `now`: return the stored result
unless the entry is absent or its age strictly exceeds the TTL; an expired
entry found on read is deleted.  Returns the possibly-updated store too. -/
def MediaCache.get (c : MediaCache) (now : Int) (url : String) :
    Option ScrapedMedia × MediaCache :=
  match c.store.lookup url with
  | none => (none, c)
  | some e =>
    if now - e.created_at > c.ttl then
      (none, { c with store := eraseKey url c.store })
    else
      (some e.result, c)

/-- The expiry purge in `MediaCache._evict`: drop every entry with
`now - created_at > ttl`. -/
def purgeExpired (ttl now : Int) (l : List (String × CacheEntry)) : List (String × CacheEntry) :=
  l.filter (fun kv => ¬ (now - kv.2.created_at > ttl))

/-- `min(self._store, key=lambda k: created_at)` followed by `del`: remove
the first entry whose `created_at` is minimal (Python `min` returns the
first minimum in iteration order). -/
def removeOldest : List (String × CacheEntry) → List (String × CacheEntry)
  | [] => []
  | kv :: rest =>
    if rest.all (fun kv₂ => kv.2.created_at ≤ kv₂.2.created_at) then rest
    else kv :: removeOldest rest

/-- The body of the `while len(self._store) >= self._max_size` loop of
`MediaCache._evict`, with structural `fuel`.  Each iteration removes
exactly one entry, so `fuel = length` (how `trimStore` calls it) makes the
zero-fuel branch unreachable.  (With `max_size = 0` the Python loop would
call `min` on an empty dict and raise; the nonemptiness guard only keeps
the model total there.) -/
def trimStoreGo (maxSize : Nat) : Nat → List (String × CacheEntry) → List (String × CacheEntry)
  | 0, l => l
  | fuel + 1, l =>
    if maxSize ≤ l.length ∧ 0 < l.length then
      trimStoreGo maxSize fuel (removeOldest l)
    else l

/-- The trimming loop of `MediaCache._evict`. -/
def trimStore (maxSize : Nat) (l : List (String × CacheEntry)) : List (String × CacheEntry) :=
  trimStoreGo maxSize l.length l

/-- `MediaCache._evict` at explicit time `now`: purge expired entries, then
trim to below capacity, evicting oldest-created first. -/
def MediaCache.evict (c : MediaCache) (now : Int) : MediaCache :=
  { c with store := trimStore c.max_size (purgeExpired c.ttl now c.store) }

/-- `MediaCache.put` at explicit time `now`: evict, then insert the entry
with `created_at = now`. -/
def MediaCache.put (c : MediaCache) (now : Int) (url : String) (r : ScrapedMedia) : MediaCache :=
  let c₁ := c.evict now
  { c₁ with store := setKey url ⟨r, now⟩ c₁.store }

/-- Insert a sequence of keys, one per time unit starting at `start`, all
mapped to the same result (the values are irrelevant to eviction). -/
def MediaCache.runPuts (c : MediaCache) (start : Int) (r : ScrapedMedia) :
    List String → MediaCache
  | [] => c
  | k :: ks => (c.put start k r).runPuts (start + 1) r ks

/-- The last `n` elements of a list (used to state which keys survive
eviction). -/
def lastKeys (n : Nat) (l : List String) : List String :=
  l.drop (l.length - n)

/-! ## Rate limiter (`src/bot/middlewares.py`) -/

/-- The pruning step of `RateLimitMiddleware.__call__`: keep the timestamps
`t` with `now - t < window`. -/
def pruneTimestamps (window now : Int) (ts : List Int) : List Int :=
  ts.filter (fun t => now - t < window)

/-- `RateLimitMiddleware.__call__` for one identity, at explicit time
`now`: prune the recorded timestamps; deny (recording nothing beyond the
prune) when the pruned list has reached `max_requests`; otherwise record
`now` and allow.  Returns (allowed?, new recorded timestamps). -/
def rateLimitAllow (maxRequests : Nat) (window : Int) (ts : List Int) (now : Int) :
    Bool × List Int :=
  let pruned := pruneTimestamps window now ts
  if maxRequests ≤ pruned.length then
    (false, pruned)
  else
    (true, pruned ++ [now])

/-- Run a sequence of calls for one identity, starting from recorded
timestamps `ts`, one call at each time in `nows`; returns the per-call
verdicts and the final recorded timestamps. -/
def runCalls (maxRequests : Nat) (window : Int) (ts : List Int) :
    List Int → List Bool × List Int
  | [] => ([], ts)
  | now :: rest =>
    let step := rateLimitAllow maxRequests window ts now
    let tail := runCalls maxRequests window step.2 rest
    (step.1 :: tail.1, tail.2)

/-- Modelled from the spec (for the refinement comparison in C4): pruning
"to the half-open interval [now-window, now)" as the claim words it. -/
def specPruneTimestamps (window now : Int) (ts : List Int) : List Int :=
  ts.filter (fun t => now - window ≤ t ∧ t < now)

/-! ## Bounded downloader (`src/utils/media_handler.py`)

The network is modelled by pairing every input item with the outcome its
`session.get`/`read` would produce: either an exception or the fetched
bytes.  `_fetch` issues the request unconditionally for every item it is
given (the size check happens only after the body was read), so the traced
variant also reports the URL of every request issued. -/

/-- Outcome of the HTTP fetch for one item. -/
inductive FetchOutcome where
  | err
  | ok (data : Bytes)
  deriving DecidableEq, Repr

/-- The effect of `_fetch` on one item: on an exception the item is left as
it was; on success the body is read and, if it exceeds `maxBytes`, the item
is left as it was (logged, not retried); otherwise `item.data` is set. -/
def fetchStep (maxBytes : Nat) (item : MediaItem) (out : FetchOutcome) : MediaItem :=
  match out with
  | .err => item
  | .ok d => if d.length > maxBytes then item else { item with data := some d }

/-- `download_media`: run `_fetch` over every input item (each paired with
its network outcome), then return `[item for item in items if item.data is
not None]`. -/
def download_media (maxBytes : Nat) (xs : List (MediaItem × FetchOutcome)) : List MediaItem :=
  ((xs.map (fun p => fetchStep maxBytes p.1 p.2)).filter (fun it => it.data.isSome))

/-- The URLs `_fetch` issues a request for: every item in the input list,
unconditionally (`session.get(item.url)` runs before any check on
`item.data` — there is none — or on the size). -/
def download_media_requests (xs : List (MediaItem × FetchOutcome)) : List String :=
  xs.map (fun p => p.1.url)

/-- The pairs `_send_single_result` hands to `download_media`: only the
items that do not already have data (`items_needing_download`), each with
its network outcome. -/
def submittedItems (items : List MediaItem) (outs : List FetchOutcome) :
    List (MediaItem × FetchOutcome) :=
  (items.filter (fun it => it.data.isNone)).zip outs

/-- The `downloaded` list assembled by `_send_single_result`:
`items_already_downloaded + newly_downloaded`. -/
def assembleDownloaded (maxBytes : Nat) (items : List MediaItem)
    (outs : List FetchOutcome) : List MediaItem :=
  (items.filter (fun it => it.data.isSome)) ++ download_media maxBytes (submittedItems items outs)

/-! ## Message delivery (`src/bot/handlers.py`) -/

/-- Where a bot message is directed: `message.reply_*` targets the user's
triggering message; `message.answer_*` with `ReplyParameters(id)` targets
the bot message with that id. -/
inductive ReplyTarget where
  | trigger
  | msg (id : Nat)
  deriving DecidableEq, Repr

/-- What kind of Telegram send a delivery is. -/
inductive DeliveryKind where
  | text
  | errorText
  | singleMedia
  | mediaGroup
  deriving DecidableEq, Repr

/-- One observable delivery produced by the handler. -/
structure Delivery where
  kind : DeliveryKind
  target : ReplyTarget
  deriving DecidableEq, Repr

/-- `_send_single_result`.  `replyTo` is the `reply_to_message_id`
parameter; `outs` are the network outcomes for the items handed to
`download_media`; `counter` is the supply of fresh Telegram message ids.
Returns (deliveries made, return value of the coroutine — the sent
`Message`'s id when one is returned, `none` otherwise — next counter).

Mirrors the source paths:
* no media → a text send (reply or answer), returning the sent message;
* nothing downloadable → an error reply, returning `None`;
* exactly one downloaded item → `reply_video`/`reply_photo` (note: always a
  reply to the triggering message, `reply_params` unused) and a bare
  `return`, i.e. `None`;
* several items → a media group (reply or answer), returning the first sent
  message of the group. -/
def send_single_result (maxBytes : Nat) (r : ScrapedMedia) (outs : List FetchOutcome)
    (replyTo : Option Nat) (counter : Nat) : List Delivery × Option Nat × Nat :=
  let target : ReplyTarget := match replyTo with
    | some i => .msg i
    | none => .trigger
  if ¬ r.has_media then
    ([⟨.text, target⟩], some counter, counter + 1)
  else
    match assembleDownloaded maxBytes r.media_items outs with
    | [] => ([⟨.errorText, .trigger⟩], none, counter + 1)
    | [_] => ([⟨.singleMedia, .trigger⟩], none, counter + 1)
    | _ :: _ :: _ => ([⟨.mediaGroup, target⟩], some counter, counter + 1)

/-- `_send_result`: when the result has a `referenced_post`, send it first
with no explicit reply target, then send the primary with
`reply_to_message_id` set to the id returned by that first send (when it
returned one).  `refOuts`/`mainOuts` are the network outcomes for the
two sends. -/
def send_result (maxBytes : Nat) (r : ScrapedMedia)
    (refOuts mainOuts : List FetchOutcome) (counter : Nat) : List Delivery :=
  match r.referenced_post with
  | none => (send_single_result maxBytes r mainOuts none counter).1
  | some ref =>
    let first := send_single_result maxBytes ref refOuts none counter
    let second := send_single_result maxBytes r mainOuts first.2.1 first.2.2
    first.1 ++ second.1

/-! ## Message handling (`src/bot/handlers.py`, `handle_media_link`) -/

/-- A detected link as passed to the handler. -/
structure DetectedLink where
  url : String
  platform : Platform
  deriving DecidableEq, Repr

/-- `handle_media_link` on one message, projected onto extraction calls:
for every detected link whose platform has a registered scraper the handler
invokes `scraper.extract(link.url)`.  There is no cache lookup and no cache
store anywhere in the handler (`MediaCache` is never referenced by
`src/bot/handlers.py`), so this returns exactly one extraction call per
usable link, unconditionally. -/
def handleExtractCalls (hasScraper : Platform → Bool) (links : List DetectedLink) :
    List String :=
  (links.filter (fun l => hasScraper l.platform)).map (fun l => l.url)

/-- The extraction calls made when a sequence of messages is handled:
`handle_media_link` runs per message and carries no state between
messages. -/
def handleMessagesExtractCalls (hasScraper : Platform → Bool)
    (messages : List (List DetectedLink)) : List String :=
  messages.flatMap (fun links => handleExtractCalls hasScraper links)

/-! ## URL query cleaning (`src/utils/link_detector.py`, `_clean_url`)

A URL is modelled as its non-query part plus the query as the ordered list
of `key=value` pairs; `_clean_url` only ever rewrites the query
(`parsed._replace(query=...)`), leaving the rest intact. -/

/-- A parsed URL: everything but the query, and the query pairs in order. -/
structure Url where
  base : String
  query : List (String × String)
  deriving DecidableEq, Repr

/-- The Reddit tracking-parameter denylist of `_clean_url`:
`k.startswith("utm_") or k in ("share", "context")`. -/
def isTrackingKey (k : String) : Bool :=
  "utm_".isPrefixOf k || k = "share" || k = "context"

/-- One insertion step of `urllib.parse.parse_qs`: append the value to the
key's group, creating the group at the end on a fresh key. -/
def insertPair (k v : String) : List (String × List String) → List (String × List String)
  | [] => [(k, [v])]
  | (k₂, vs) :: rest =>
    if k₂ = k then (k₂, vs ++ [v]) :: rest else (k₂, vs) :: insertPair k v rest

/-- `urllib.parse.parse_qs` on already-split pairs: group values by key in
first-occurrence order, dropping pairs with a blank value
(`keep_blank_values` defaults to `False`). -/
def parse_qs (pairs : List (String × String)) : List (String × List String) :=
  pairs.foldl (fun acc p => if p.2 = "" then acc else insertPair p.1 p.2 acc) []

/-- `urllib.parse.urlencode(..., doseq=True)`: flatten the groups back to
`key=value` pairs. -/
def urlencodeDoseq (groups : List (String × List String)) : List (String × String) :=
  groups.flatMap (fun g => g.2.map (fun v => (g.1, v)))

/-- The query transform of `_clean_url`: Reddit round-trips the query
through `parse_qs`, drops denylisted keys and re-encodes; TikTok replaces
the query by the empty string; every other platform returns the URL
unchanged. -/
def cleanQuery (p : Platform) (q : List (String × String)) : List (String × String) :=
  match p with
  | .reddit => urlencodeDoseq ((parse_qs q).filter (fun g => ¬ isTrackingKey g.1))
  | .tiktok => []
  | _ => q

/-- `_clean_url`: the query is rewritten, the rest of the URL kept. -/
def clean_url (p : Platform) (u : Url) : Url :=
  { u with query := cleanQuery p u.query }

/-- Modelled from the spec (for the refinement comparison in C8): "strips
exactly the denylisted tracking query parameters and preserves every other
query parameter" — a plain filter on the pairs. -/
def specCleanQuery (q : List (String × String)) : List (String × String) :=
  q.filter (fun p => ¬ isTrackingKey p.1)

/-! ## Concurrency of the downloader (`src/utils/media_handler.py`)

`download_media` creates `sem = asyncio.Semaphore(settings.concurrent_downloads)`
*inside* the call, fans the `_fetch` coroutines out under it with
`asyncio.gather`, and returns after the gather joins.  The interleaving of
the event loop is modelled as a transition system over the set of in-flight
`download_media` invocations: each invocation owns its own semaphore. -/

/-- One in-flight `download_media` invocation: its item count, how many
items are pending / have a running fetch / are finished, how many semaphore
permits are free, and whether the call has returned. -/
structure Invocation where
  items : Nat
  pending : Nat
  running : Nat
  done : Nat
  semAvail : Nat
  returned : Bool
  deriving DecidableEq, Repr

/-- The process state: the in-flight invocations. -/
abbrev DlState := List Invocation

/-- Event-loop steps, with `m` the configured `concurrent_downloads`:
* `call`: `download_media` is entered with `n` items, creating a fresh
  semaphore of `m` permits;
* `start`: a pending `_fetch` acquires a permit of its own invocation's
  semaphore and its HTTP request starts running;
* `finish`: a running fetch completes (or is dropped) and releases its
  permit;
* `ret`: the `asyncio.gather` joins — only possible once no item is
  pending or running — and the call returns. -/
inductive DlStep (m : Nat) : DlState → DlState → Prop where
  | call (s : DlState) (n : Nat) :
      DlStep m s (s ++ [⟨n, n, 0, 0, m, false⟩])
  | start (pre post : DlState) (i : Invocation)
      (hp : 0 < i.pending) (hs : 0 < i.semAvail) :
      DlStep m (pre ++ i :: post)
        (pre ++ { i with pending := i.pending - 1, running := i.running + 1,
                         semAvail := i.semAvail - 1 } :: post)
  | finish (pre post : DlState) (i : Invocation) (hr : 0 < i.running) :
      DlStep m (pre ++ i :: post)
        (pre ++ { i with running := i.running - 1, done := i.done + 1,
                         semAvail := i.semAvail + 1 } :: post)
  | ret (pre post : DlState) (i : Invocation)
      (hp : i.pending = 0) (hr : i.running = 0) (hn : i.returned = false) :
      DlStep m (pre ++ i :: post) (pre ++ { i with returned := true } :: post)

/-- States reachable from the idle process (no invocation in flight). -/
def DlReachable (m : Nat) (s : DlState) : Prop :=
  Relation.ReflTransGen (DlStep m) [] s

/-- The number of item fetches running concurrently, across all in-flight
invocations. -/
def totalRunning (s : DlState) : Nat :=
  (s.map (fun i => i.running)).sum

/-! # Theorems -/

/-- C1.  `extract(url)` tries `primary`, `yt-dlp`, `browser` in order (the
model is total, matching the `try/except` around every method: `extract`
itself never raises).  If a method succeeds, its result is returned with
`method_used` stamped to that method's name and no later method is invoked
(the first component lists exactly the invoked methods); if all three
raise, the placeholder result is returned: empty items, the fixed non-empty
caption, and `method_used = "none"`. -/
theorem C1_extract_fallback_chain (p : Platform) (u : String)
    (pr yt br : Except String ScrapedMedia) :
    (∀ r, pr = .ok r →
      extract p u pr yt br = (["primary"], r.withMethodUsed "primary")) ∧
    (∀ e r, pr = .error e → yt = .ok r →
      extract p u pr yt br = (["primary", "yt-dlp"], r.withMethodUsed "yt-dlp")) ∧
    (∀ e₁ e₂ r, pr = .error e₁ → yt = .error e₂ → br = .ok r →
      extract p u pr yt br =
        (["primary", "yt-dlp", "browser"], r.withMethodUsed "browser")) ∧
    (∀ e₁ e₂ e₃, pr = .error e₁ → yt = .error e₂ → br = .error e₃ →
      extract p u pr yt br = (["primary", "yt-dlp", "browser"], placeholderResult p u) ∧
      (placeholderResult p u).media_items = [] ∧
      (placeholderResult p u).caption = some "Could not extract media from this link." ∧
      "Could not extract media from this link." ≠ "" ∧
      (placeholderResult p u).method_used = "none") := by
  refine ⟨?_, ?_, ?_, ?_⟩
  · intro r h
    subst h
    rfl
  · intro e r h₁ h₂
    subst h₁
    subst h₂
    rfl
  · intro e₁ e₂ r h₁ h₂ h₃
    subst h₁
    subst h₂
    subst h₃
    rfl
  · intro e₁ e₂ e₃ h₁ h₂ h₃
    subst h₁
    subst h₂
    subst h₃
    refine ⟨rfl, rfl, rfl, ?_, rfl⟩
    intro h
    simp at h

/-- Witness for C1: a concrete run where `primary` raises and `yt-dlp`
succeeds. -/
theorem C1_extract_fallback_chain_witness :
    extract .twitter "https://x.com/a/status/1" (.error "boom")
      (.ok (.mk .twitter "https://x.com/a/status/1" none none [] "unknown" none none))
      (.error "späte")
      = (["primary", "yt-dlp"],
         (ScrapedMedia.mk .twitter "https://x.com/a/status/1" none none [] "unknown"
            none none).withMethodUsed "yt-dlp") :=
  (C1_extract_fallback_chain .twitter "https://x.com/a/status/1" (.error "boom")
      (.ok (.mk .twitter "https://x.com/a/status/1" none none [] "unknown" none none))
      (.error "späte")).2.1 "boom"
    (.mk .twitter "https://x.com/a/status/1" none none [] "unknown" none none) rfl rfl

/-- C10.  When a scraped result has media, `format_caption` appends as the
final part an HTML link whose URL is the original URL with every
occurrence of the substring `"x.com"` replaced by `"xcancel.com"`
(`pyReplace`, the embedding of Python `str.replace`); the caption builder
never inspects the platform, so this applies to every platform's URLs; a
result without media items gets no link part. -/
theorem C10_format_caption_xcancel (r : ScrapedMedia) :
    (r.has_media = true →
      ∃ pre, captionParts r =
          pre ++ ["\n<a href=\"" ++ pyReplace r.original_url "x.com" "xcancel.com"
                  ++ "\">Link</a>"] ∧
        format_caption r = String.intercalate "\n" (captionParts r)) ∧
    (r.has_media = false →
      captionParts r =
        (match r.author with
         | some a => if a.isEmpty then [] else [a ++ ":"]
         | none => []) ++
        (match r.caption with
         | some c => if c.isEmpty then [] else [c]
         | none => [])) ∧
    (∀ q : Platform, format_caption (r.withPlatform q) = format_caption r) := by
  refine ⟨?_, ?_, ?_⟩
  · intro h
    refine ⟨(match r.author with
             | some a => if a.isEmpty then [] else [a ++ ":"]
             | none => []) ++
            (match r.caption with
             | some c => if c.isEmpty then [] else [c]
             | none => []), ?_, ?_⟩
    · simp only [captionParts, h, if_true, xcancelUrl, List.append_assoc]
    · have hne : captionParts r ≠ [] := by
        simp only [captionParts, h, if_true]
        intro hc
        have := congrArg List.length hc
        simp at this
      simp only [format_caption]
      rw [if_neg (by simpa using hne)]
  · intro h
    simp [captionParts, h]
  · intro q
    cases r with
    | mk p u a c mi m rp rt =>
      rfl

/-- Witness for C10: a concrete result with one media item and an
`x.com` URL; the embedded link points at `xcancel.com`. -/
theorem C10_format_caption_xcancel_witness :
    format_caption (.mk .twitter "https://x.com/a/status/1" none (some "hi")
        [⟨"https://img", .image, none⟩] "primary" none none)
      = String.intercalate "\n" (captionParts (.mk .twitter "https://x.com/a/status/1"
          none (some "hi") [⟨"https://img", .image, none⟩] "primary" none none)) ∧
    captionParts (.mk .twitter "https://x.com/a/status/1" none (some "hi")
        [⟨"https://img", .image, none⟩] "primary" none none)
      = ["hi", "\n<a href=\"https://xcancel.com/a/status/1\">Link</a>"] := by
  have h := (C10_format_caption_xcancel (.mk .twitter "https://x.com/a/status/1" none
      (some "hi") [⟨"https://img", .image, none⟩] "primary" none none)).1 (by decide)
  obtain ⟨pre, h₁, h₂⟩ := h
  exact ⟨h₂, by decide⟩

/-- C2.  `handle_media_link` contains no cache lookup and no cache store:
`MediaCache` is never referenced by the handler, so when the same URL is
handled in two successive messages the extraction engine is invoked twice
(one call per occurrence), not once — contradicting the claimed
cache-then-extract data flow. -/
theorem C2_handler_extracts_twice_for_repeated_url :
    handleMessagesExtractCalls (fun _ => true)
        [[⟨"https://x.com/a/status/1", .twitter⟩],
         [⟨"https://x.com/a/status/1", .twitter⟩]]
      = ["https://x.com/a/status/1", "https://x.com/a/status/1"] ∧
    (handleMessagesExtractCalls (fun _ => true)
        [[⟨"https://x.com/a/status/1", .twitter⟩],
         [⟨"https://x.com/a/status/1", .twitter⟩]]).length = 2 := by
  constructor
  · rfl
  · rfl

/-- C4, counterexample.  The claim says `allow` prunes to the half-open
interval `[now-window, now)`; the code keeps `t` iff `now - t < window`.
At `now = 60`, `window = 60`, recorded `[0]`, `max_requests = 1`: the
claimed prune keeps `0` (so the call must be denied), but the code prunes
`0` away and allows the call. -/
theorem C4_counterexample :
    pruneTimestamps 60 60 [0] = [] ∧
    specPruneTimestamps 60 60 [0] = [0] ∧
    pruneTimestamps 60 60 [0] ≠ specPruneTimestamps 60 60 [0] ∧
    (rateLimitAllow 1 60 [0] 60).1 = true := by
  refine ⟨by decide, by decide, by decide, by decide⟩

/-- C4, amended.  `allow` first prunes the identity's timestamps keeping
exactly those `t` with `now - t < window` (for timestamps in the past this
is the half-open interval `(now-window, now]`, not `[now-window, now)`);
if the pruned list has length at least `max_requests` it denies and
records nothing beyond the prune, otherwise it records `now` and allows.
With `max_requests = 5` and `window = 60`: five calls inside the window
all allow, the sixth denies, and a call after the window has elapsed
allows again. -/
theorem C4_rate_limiter (maxR : Nat) (w : Int) (ts : List Int) (now : Int) :
    (∀ t, t ∈ pruneTimestamps w now ts ↔ (t ∈ ts ∧ now - t < w)) ∧
    ((rateLimitAllow maxR w ts now).1 = false ↔
      maxR ≤ (pruneTimestamps w now ts).length) ∧
    ((rateLimitAllow maxR w ts now).1 = false →
      (rateLimitAllow maxR w ts now).2 = pruneTimestamps w now ts) ∧
    ((rateLimitAllow maxR w ts now).1 = true →
      (rateLimitAllow maxR w ts now).2 = pruneTimestamps w now ts ++ [now]) ∧
    (runCalls 5 60 [] [0, 1, 2, 3, 4, 5, 65]).1
      = [true, true, true, true, true, false, true] := by
  refine ⟨?_, ?_, ?_, ?_, by decide⟩
  · intro t
    simp [pruneTimestamps]
  · by_cases h : maxR ≤ (pruneTimestamps w now ts).length
    · simp [rateLimitAllow, h]
    · simp [rateLimitAllow, h]
  · intro h
    by_cases hc : maxR ≤ (pruneTimestamps w now ts).length
    · simp [rateLimitAllow, hc]
    · simp [rateLimitAllow, hc] at h
  · intro h
    by_cases hc : maxR ≤ (pruneTimestamps w now ts).length
    · simp [rateLimitAllow, hc] at h
    · simp [rateLimitAllow, hc]

/-- Witness for C4: a concrete denied call records nothing beyond the
prune, and a concrete allowed call records `now`. -/
theorem C4_rate_limiter_witness :
    (rateLimitAllow 1 60 [0] 30).2 = pruneTimestamps 60 30 [0] ∧
    (rateLimitAllow 2 60 [0] 30).2 = pruneTimestamps 60 30 [0] ++ [30] := by
  constructor
  · exact (C4_rate_limiter 1 60 [0] 30).2.2.1 (by decide)
  · exact (C4_rate_limiter 2 60 [0] 30).2.2.2.1 (by decide)

/-- C5, counterexample.  The claim says an item whose fetch raises is
absent from the result.  An item that already holds data is returned even
when its fetch raises, because the final filter keeps every item with
non-`None` data. -/
theorem C5_counterexample :
    download_media 10 [(⟨"u", .image, some [1]⟩, .err)] = [⟨"u", .image, some [1]⟩] ∧
    download_media 10 [(⟨"u", .image, some [1]⟩, .err)] ≠ [] := by
  refine ⟨by decide, by decide⟩

/-- Unfolding of `download_media` on a cons. -/
theorem download_media_cons (maxB : Nat) (p : MediaItem × FetchOutcome)
    (xs : List (MediaItem × FetchOutcome)) :
    download_media maxB (p :: xs) =
      (if (fetchStep maxB p.1 p.2).data.isSome then [fetchStep maxB p.1 p.2] else [])
        ++ download_media maxB xs := by
  simp only [download_media, List.map_cons, List.filter_cons]
  by_cases h : (fetchStep maxB p.1 p.2).data.isSome
  · simp [h]
  · simp [h]

/-- On data-free items `download_media` computes the successful
within-ceiling subset, data populated. -/
theorem download_media_eq_filterMap (maxB : Nat) (xs : List (MediaItem × FetchOutcome))
    (h : ∀ p ∈ xs, p.1.data = none) :
    download_media maxB xs = xs.filterMap (fun p =>
      match p.2 with
      | .ok d => if d.length ≤ maxB then some { p.1 with data := some d } else none
      | .err => none) := by
  induction xs with
  | nil => simp [download_media]
  | cons p xs ih =>
    obtain ⟨it, out⟩ := p
    have hp : it.data = none := h (it, out) (by simp)
    have ht : ∀ q ∈ xs, q.1.data = none := fun q hq => h q (by simp [hq])
    rw [download_media_cons, List.filterMap_cons, ih ht]
    cases out with
    | err => simp [fetchStep, hp]
    | ok d =>
      by_cases hd : d.length ≤ maxB
      · have hgt : ¬ d.length > maxB := by omega
        simp [fetchStep, hd, hgt]
      · have hgt : d.length > maxB := by omega
        simp [fetchStep, hd, hgt, hp]

/-- C5, amended.  For input items that do not already hold data,
`download_media` returns exactly those whose fetch completed without error
and whose size does not exceed the ceiling, each with `data` populated
(and in particular the empty list when every fetch fails); an item that
already held data before the call is always in the result, whatever its
fetch outcome. -/
theorem C5_download_media_success_subset (maxB : Nat)
    (xs : List (MediaItem × FetchOutcome)) :
    ((∀ p ∈ xs, p.1.data = none) →
      download_media maxB xs = xs.filterMap (fun p =>
        match p.2 with
        | .ok d => if d.length ≤ maxB then some { p.1 with data := some d } else none
        | .err => none)) ∧
    ((∀ p ∈ xs, p.1.data = none) → (∀ p ∈ xs, p.2 = .err) →
      download_media maxB xs = []) ∧
    (∀ p ∈ xs, p.1.data.isSome = true → fetchStep maxB p.1 p.2 ∈ download_media maxB xs) := by
  refine ⟨download_media_eq_filterMap maxB xs, ?_, ?_⟩
  · intro h he
    rw [download_media_eq_filterMap maxB xs h]
    rw [List.filterMap_eq_nil]
    intro p hp
    rw [he p hp]
  · intro p hp hs
    have hmem : fetchStep maxB p.1 p.2 ∈ (xs.map (fun q => fetchStep maxB q.1 q.2)) :=
      List.mem_map.mpr ⟨p, hp, rfl⟩
    have hkeep : (fetchStep maxB p.1 p.2).data.isSome = true := by
      obtain ⟨it, out⟩ := p
      cases out with
      | err => simpa [fetchStep] using hs
      | ok d =>
        by_cases hd : d.length > maxB
        · simpa [fetchStep, hd] using hs
        · simp [fetchStep, hd]
    exact List.mem_filter.mpr ⟨hmem, hkeep⟩

/-- Witness for C5: three data-free items where the second's fetch raises
and the third exceeds the ceiling; exactly the first survives, with data
populated. -/
theorem C5_download_media_success_subset_witness :
    download_media 3 [(⟨"a", .image, none⟩, .ok [1, 2]),
                      (⟨"b", .video, none⟩, .err),
                      (⟨"c", .image, none⟩, .ok [1, 2, 3, 4])]
      = [⟨"a", .image, some [1, 2]⟩] := by
  have h := (C5_download_media_success_subset 3
      [(⟨"a", .image, none⟩, .ok [1, 2]),
       (⟨"b", .video, none⟩, .err),
       (⟨"c", .image, none⟩, .ok [1, 2, 3, 4])]).1 (by decide)
  exact h.trans (by decide)

/-- C6, counterexample.  The claim says an item passed to the downloader
that already holds data is left untouched and never fetched.  In the code
`_fetch` runs for every input item — `download_media_requests` lists a
request for it — and a successful within-limit fetch overwrites its
data. -/
theorem C6_counterexample :
    download_media 10 [(⟨"u", .image, some [1, 2]⟩, .ok [9])]
      = [⟨"u", .image, some [9]⟩] ∧
    download_media_requests [(⟨"u", .image, some [1, 2]⟩, .ok [9])] = ["u"] ∧
    (⟨"u", .image, some [9]⟩ : MediaItem).data ≠ (⟨"u", .image, some [1, 2]⟩ : MediaItem).data := by
  refine ⟨by decide, by decide, by decide⟩

/-- C6, amended.  The pass-through invariant is enforced by the handler,
not by the downloader: `_send_single_result` submits to `download_media`
only the items whose data is absent (every submitted pair is data-free,
and every request issued by that call is for a data-free item of the
original list), and an item already holding data passes untouched into the
assembled `downloaded` list.  `download_media` itself fetches every item
it is given and overwrites its data on a successful within-limit fetch. -/
theorem C6_prepopulated_pass_through (maxB : Nat) (items : List MediaItem)
    (outs : List FetchOutcome) :
    (∀ p ∈ submittedItems items outs, p.1.data = none) ∧
    (∀ it ∈ items, it.data.isSome = true → it ∈ assembleDownloaded maxB items outs) ∧
    (∀ u ∈ download_media_requests (submittedItems items outs),
      ∃ it ∈ items, it.data = none ∧ it.url = u) := by
  refine ⟨?_, ?_, ?_⟩
  · intro p hp
    have h₁ : p.1 ∈ items.filter (fun it => it.data.isNone) := (List.mem_zip hp).1
    have h₂ := (List.mem_filter.mp h₁).2
    simpa [Option.isNone_iff_eq_none] using h₂
  · intro it hit hs
    have h₁ : it ∈ items.filter (fun it => it.data.isSome) :=
      List.mem_filter.mpr ⟨hit, hs⟩
    exact List.mem_append_left _ h₁
  · intro u hu
    simp only [download_media_requests, List.mem_map] at hu
    obtain ⟨p, hp, hpu⟩ := hu
    have h₁ : p.1 ∈ items.filter (fun it => it.data.isNone) := (List.mem_zip hp).1
    refine ⟨p.1, (List.mem_filter.mp h₁).1, ?_, hpu⟩
    simpa [Option.isNone_iff_eq_none] using (List.mem_filter.mp h₁).2

/-- Witness for C6: with one pre-populated and one data-free item, the
pre-populated one passes through into the assembled result untouched. -/
theorem C6_prepopulated_pass_through_witness :
    (⟨"a", .image, some [7]⟩ : MediaItem) ∈
      assembleDownloaded 10 [⟨"a", .image, some [7]⟩, ⟨"b", .image, none⟩] [.ok [5]] :=
  (C6_prepopulated_pass_through 10 [⟨"a", .image, some [7]⟩, ⟨"b", .image, none⟩]
    [.ok [5]]).2.1 ⟨"a", .image, some [7]⟩ (by decide) (by decide)

/-- C7.  The claim (and the docstrings of `_send_result` and
`_send_single_result`) say the referenced post is delivered first and the
primary is then sent as a reply to that just-sent message, falling back to
the triggering message only when sending the reference fails or is absent.
But the single-media branch of `_send_single_result` ends in a bare
`return`, yielding `None` even though the send succeeded, so the primary
falls back to replying to the trigger: with a referenced post of exactly
one (already downloaded) media item, the reference delivery succeeds yet
the second delivery still targets the triggering message. -/
theorem C7_reply_target_lost_for_single_media :
    send_result 10
        (.mk .twitter "u" none (some "hi") [] "primary"
          (some (.mk .twitter "r" none none [⟨"m", .video, some [1]⟩] "primary" none none))
          (some "quote"))
        [] [] 0
      = [⟨.singleMedia, .trigger⟩, ⟨.text, .trigger⟩] ∧
    (send_single_result 10
        (.mk .twitter "r" none none [⟨"m", .video, some [1]⟩] "primary" none none)
        [] none 0).1
      = [⟨.singleMedia, .trigger⟩] ∧
    (send_single_result 10
        (.mk .twitter "r" none none [⟨"m", .video, some [1]⟩] "primary" none none)
        [] none 0).2.1
      = none := by
  refine ⟨by decide, by decide, by decide⟩

/-! ### Cache lemmas (towards C3) -/

theorem removeOldest_length (l : List (String × CacheEntry)) (hl : l ≠ []) :
    (removeOldest l).length + 1 = l.length := by
  induction l with
  | nil => exact absurd rfl hl
  | cons kv rest ih =>
    by_cases hb : rest.all (fun kv₂ => kv.2.created_at ≤ kv₂.2.created_at)
    · simp [removeOldest, hb]
    · have hrest : rest ≠ [] := by
        intro he
        subst he
        simp at hb
      have := ih hrest
      simp [removeOldest, hb]
      omega

/-- `removeOldest` deletes exactly one entry, one whose `created_at` is
minimal over the whole store. -/
theorem removeOldest_spec (l : List (String × CacheEntry)) (hl : l ≠ []) :
    ∃ pre suf e, l = pre ++ e :: suf ∧ removeOldest l = pre ++ suf ∧
      ∀ kv ∈ l, e.2.created_at ≤ kv.2.created_at := by
  induction l with
  | nil => exact absurd rfl hl
  | cons kv rest ih =>
    by_cases hb : rest.all (fun kv₂ => kv.2.created_at ≤ kv₂.2.created_at)
    · refine ⟨[], rest, kv, by simp, by simp [removeOldest, hb], ?_⟩
      intro kv₂ h₂
      rcases List.mem_cons.mp h₂ with h | h
      · subst h
        exact le_refl _
      · exact of_decide_eq_true (List.all_eq_true.mp hb kv₂ h)
    · have hrest : rest ≠ [] := by
        intro he
        subst he
        simp at hb
      obtain ⟨pre, suf, e, heq, hrem, hmin⟩ := ih hrest
      have hx : ∃ x ∈ rest, x.2.created_at < kv.2.created_at := by
        simp only [List.all_eq_true, decide_eq_true_eq] at hb
        push_neg at hb
        obtain ⟨x, hx₁, hx₂⟩ := hb
        exact ⟨x, hx₁, by omega⟩
      refine ⟨kv :: pre, suf, e, by simp [heq], by simp [removeOldest, hb, hrem], ?_⟩
      intro kv₂ h₂
      rcases List.mem_cons.mp h₂ with h | h
      · subst h
        obtain ⟨x, hx₁, hx₂⟩ := hx
        have := hmin x hx₁
        omega
      · exact hmin kv₂ h

theorem trimStoreGo_of_lt (maxSize fuel : Nat) (l : List (String × CacheEntry))
    (h : l.length < maxSize) : trimStoreGo maxSize fuel l = l := by
  cases fuel with
  | zero => rfl
  | succ n =>
    have : ¬ (maxSize ≤ l.length ∧ 0 < l.length) := by omega
    simp [trimStoreGo, this]

theorem trimStoreGo_length (maxSize : Nat) (hmax : 1 ≤ maxSize) :
    ∀ (fuel : Nat) (l : List (String × CacheEntry)), l.length ≤ fuel →
      (trimStoreGo maxSize fuel l).length < maxSize := by
  intro fuel
  induction fuel with
  | zero =>
    intro l hl
    have h0 : trimStoreGo maxSize 0 l = l := rfl
    rw [h0]
    omega
  | succ n ih =>
    intro l hl
    by_cases hc : maxSize ≤ l.length ∧ 0 < l.length
    · have hne : l ≠ [] := by
        intro he
        subst he
        simp at hc
      have hlen := removeOldest_length l hne
      simp only [trimStoreGo, hc, if_true]
      exact ih (removeOldest l) (by omega)
    · simp only [trimStoreGo, hc, if_false]
      omega

theorem trimStore_length (maxSize : Nat) (l : List (String × CacheEntry))
    (hmax : 1 ≤ maxSize) : (trimStore maxSize l).length < maxSize :=
  trimStoreGo_length maxSize hmax l.length l (le_refl _)

theorem trimStore_of_lt (maxSize : Nat) (l : List (String × CacheEntry))
    (h : l.length < maxSize) : trimStore maxSize l = l :=
  trimStoreGo_of_lt maxSize l.length l h

/-- On a store whose `created_at`s strictly increase, the oldest entry is
the head. -/
theorem removeOldest_sorted (kv : String × CacheEntry) (t : List (String × CacheEntry))
    (hs : ((kv :: t).map (fun p => p.2.created_at)).Pairwise (· < ·)) :
    removeOldest (kv :: t) = t := by
  have hs₂ : (kv.2.created_at :: t.map (fun p => p.2.created_at)).Pairwise (· < ·) := by
    simpa using hs
  have hhead : ∀ p ∈ t, kv.2.created_at ≤ p.2.created_at := by
    intro p hp
    have := (List.pairwise_cons.mp hs₂).1 p.2.created_at
      (List.mem_map.mpr ⟨p, hp, rfl⟩)
    omega
  have hb : t.all (fun kv₂ => kv.2.created_at ≤ kv₂.2.created_at) = true := by
    rw [List.all_eq_true]
    intro p hp
    exact decide_eq_true (hhead p hp)
  simp [removeOldest, hb]

theorem trimStore_sorted_full (kv : String × CacheEntry) (t : List (String × CacheEntry))
    (maxSize : Nat) (hlen : (kv :: t).length = maxSize)
    (hs : ((kv :: t).map (fun p => p.2.created_at)).Pairwise (· < ·)) :
    trimStore maxSize (kv :: t) = t := by
  have h₁ : maxSize = t.length + 1 := by simpa using hlen.symm
  subst h₁
  show trimStoreGo (t.length + 1) (kv :: t).length (kv :: t) = t
  simp only [List.length_cons, trimStoreGo]
  rw [if_pos (by constructor <;> omega)]
  rw [removeOldest_sorted kv t hs]
  exact trimStoreGo_of_lt (t.length + 1) t.length t (by omega)

theorem setKey_of_not_mem (k : String) (e : CacheEntry) :
    ∀ l : List (String × CacheEntry), k ∉ l.map Prod.fst →
      setKey k e l = l ++ [(k, e)] := by
  intro l
  induction l with
  | nil => intro _; rfl
  | cons kv rest ih =>
    intro h
    simp only [List.map_cons, List.mem_cons] at h
    push_neg at h
    obtain ⟨k₂, e₂⟩ := kv
    simp only [setKey, List.cons_append]
    rw [if_neg (fun he => h.1 he.symm), ih h.2]

theorem setKey_length (k : String) (e : CacheEntry) :
    ∀ l : List (String × CacheEntry), (setKey k e l).length ≤ l.length + 1 := by
  intro l
  induction l with
  | nil => simp [setKey]
  | cons kv rest ih =>
    by_cases h : kv.1 = k
    · obtain ⟨k₂, e₂⟩ := kv
      simp only [setKey]
      rw [if_pos h]
      simp
    · obtain ⟨k₂, e₂⟩ := kv
      simp only [setKey]
      rw [if_neg h]
      simpa using ih

theorem purgeExpired_of_fresh (ttl now : Int) (l : List (String × CacheEntry))
    (h : ∀ kv ∈ l, now - kv.2.created_at ≤ ttl) : purgeExpired ttl now l = l := by
  rw [purgeExpired, List.filter_eq_self]
  intro kv hkv
  have := h kv hkv
  simp
  omega

theorem lookup_eraseKey (k : String) :
    ∀ l : List (String × CacheEntry), (eraseKey k l).lookup k = none := by
  intro l
  induction l with
  | nil => rfl
  | cons kv rest ih =>
    obtain ⟨k₂, e₂⟩ := kv
    by_cases h : k₂ = k
    · subst h
      simp only [eraseKey, List.filter_cons]
      rw [if_neg (by simp)]
      exact ih
    · have hbe : (k == k₂) = false :=
        beq_eq_false_iff_ne.mpr (fun he => h he.symm)
      simp only [eraseKey, List.filter_cons]
      rw [if_pos (by simp [h])]
      simp only [List.lookup, hbe]
      exact ih

theorem put_store_eq (c : MediaCache) (now : Int) (url : String) (r : ScrapedMedia) :
    (c.put now url r).store =
      setKey url ⟨r, now⟩ (trimStore c.max_size (purgeExpired c.ttl now c.store)) := rfl

theorem lastKeys_of_le (n : Nat) (l : List String) (h : l.length ≤ n) :
    lastKeys n l = l := by
  unfold lastKeys
  have h0 : l.length - n = 0 := by omega
  rw [h0, List.drop_zero]

theorem lastKeys_cons_of_le (n : Nat) (a : String) (l : List String) (h : n ≤ l.length) :
    lastKeys n (a :: l) = lastKeys n l := by
  unfold lastKeys
  have h0 : (a :: l).length - n = (l.length - n) + 1 := by
    simp only [List.length_cons]
    omega
  rw [h0, List.drop_succ_cons]

/-- A fresh-keyed `put` into a below-capacity store appends. -/
theorem put_fresh_lt (c : MediaCache) (now : Int) (url : String) (r : ScrapedMedia)
    (hlen : c.store.length < c.max_size)
    (hfresh : url ∉ c.store.map Prod.fst)
    (hexp : ∀ kv ∈ c.store, now - kv.2.created_at ≤ c.ttl) :
    (c.put now url r).store = c.store ++ [(url, ⟨r, now⟩)] := by
  rw [put_store_eq, purgeExpired_of_fresh c.ttl now c.store hexp,
      trimStore_of_lt c.max_size c.store hlen,
      setKey_of_not_mem url ⟨r, now⟩ c.store hfresh]

/-- A fresh-keyed `put` into a full, strictly increasing store evicts the
head (the oldest entry) and appends. -/
theorem put_fresh_eq (c : MediaCache) (now : Int) (url : String) (r : ScrapedMedia)
    (hlen : c.store.length = c.max_size) (hmax : 1 ≤ c.max_size)
    (hsorted : (c.store.map (fun kv => kv.2.created_at)).Pairwise (· < ·))
    (hfresh : url ∉ c.store.map Prod.fst)
    (hexp : ∀ kv ∈ c.store, now - kv.2.created_at ≤ c.ttl) :
    (c.put now url r).store = c.store.tail ++ [(url, ⟨r, now⟩)] := by
  rw [put_store_eq, purgeExpired_of_fresh c.ttl now c.store hexp]
  rcases hs2 : c.store with _ | ⟨kv, t⟩
  · rw [hs2] at hlen
    simp at hlen
    omega
  · rw [hs2] at hlen hsorted hfresh
    rw [trimStore_sorted_full kv t c.max_size hlen hsorted]
    have hf₂ : url ∉ t.map Prod.fst := by
      simp only [List.map_cons, List.mem_cons] at hfresh
      push_neg at hfresh
      exact hfresh.2
    rw [setKey_of_not_mem url ⟨r, now⟩ t hf₂]
    simp

/-- Main induction for the eviction scenario: folding fresh distinct keys
at strictly increasing, non-expiring times keeps exactly the last
`max_size` keys of old-keys-then-new-keys, in order. -/
theorem runPuts_spec (r : ScrapedMedia) :
    ∀ (keys : List String) (c : MediaCache) (start : Int),
      1 ≤ c.max_size →
      c.store.length ≤ c.max_size →
      keys.Nodup →
      (∀ k ∈ keys, k ∉ c.store.map Prod.fst) →
      (c.store.map (fun kv => kv.2.created_at)).Pairwise (· < ·) →
      (∀ kv ∈ c.store, kv.2.created_at < start) →
      (∀ kv ∈ c.store, start + keys.length - 1 - kv.2.created_at ≤ c.ttl) →
      ((keys.length : Int) - 1 ≤ c.ttl) →
      (c.runPuts start r keys).store.map Prod.fst =
        lastKeys c.max_size (c.store.map Prod.fst ++ keys) := by
  intro keys
  induction keys with
  | nil =>
    intro c start h1 h2 _ _ _ _ _ _
    show c.store.map Prod.fst = lastKeys c.max_size (c.store.map Prod.fst ++ [])
    rw [List.append_nil, lastKeys_of_le _ _ (by simpa using h2)]
  | cons k ks ih =>
    intro c start h1 h2 h3 h4 h5 h6 h7 h8
    have hk : k ∉ c.store.map Prod.fst := h4 k (List.mem_cons_self k ks)
    have hlen_key : ((k :: ks).length : Int) = (ks.length : Int) + 1 := by
      simp only [List.length_cons]
      push_cast
      ring
    have hexp_now : ∀ kv ∈ c.store, start - kv.2.created_at ≤ c.ttl := by
      intro kv hkv
      have h := h7 kv hkv
      rw [hlen_key] at h
      omega
    have hmax₂ : (c.put start k r).max_size = c.max_size := rfl
    have httl₂ : (c.put start k r).ttl = c.ttl := rfl
    show ((c.put start k r).runPuts (start + 1) r ks).store.map Prod.fst =
      lastKeys c.max_size (c.store.map Prod.fst ++ (k :: ks))
    by_cases hcase : c.store.length < c.max_size
    · have e₂ : (c.put start k r).store = c.store ++ [(k, ⟨r, start⟩)] :=
        put_fresh_lt c start k r hcase hk hexp_now
      have hrec := ih (c.put start k r) (start + 1) (by rw [hmax₂]; exact h1)
        (by rw [e₂, hmax₂]; simp; omega)
        ((List.nodup_cons.mp h3).2)
        (by
          intro k₂ hk₂
          rw [e₂]
          simp only [List.map_append, List.map_cons, List.map_nil, List.mem_append,
            List.mem_cons, List.not_mem_nil]
          push_neg
          refine ⟨h4 k₂ (List.mem_cons_of_mem k hk₂), ?_, fun h => h⟩
          intro he
          exact (List.nodup_cons.mp h3).1 (he ▸ hk₂)
          )
        (by
          rw [e₂]
          simp only [List.map_append, List.map_cons, List.map_nil]
          rw [List.pairwise_append]
          refine ⟨h5, by simp, ?_⟩
          intro x hx y hy
          simp only [List.mem_cons, List.not_mem_nil, or_false] at hy
          subst hy
          obtain ⟨kv, hkv, hkveq⟩ := List.mem_map.mp hx
          exact hkveq ▸ h6 kv hkv)
        (by
          intro kv hkv
          rw [e₂] at hkv
          rcases List.mem_append.mp hkv with h | h
          · have := h6 kv h
            omega
          · simp only [List.mem_cons, List.not_mem_nil, or_false] at h
            subst h
            exact lt_add_one start)
        (by
          intro kv hkv
          rw [httl₂]
          rw [e₂] at hkv
          rcases List.mem_append.mp hkv with h | h
          · have := h7 kv h
            rw [hlen_key] at this
            omega
          · simp only [List.mem_cons, List.not_mem_nil, or_false] at h
            subst h
            show start + 1 + (ks.length : Int) - 1 - start ≤ c.ttl
            rw [hlen_key] at h8
            omega)
        (by
          rw [httl₂]
          rw [hlen_key] at h8
          omega)
      rw [hmax₂, e₂] at hrec
      rw [hrec]
      simp only [List.map_append, List.map_cons, List.map_nil]
      rw [List.append_assoc]
      rfl
    · have hfull : c.store.length = c.max_size := by omega
      have e₂ : (c.put start k r).store = c.store.tail ++ [(k, ⟨r, start⟩)] :=
        put_fresh_eq c start k r hfull h1 h5 hk hexp_now
      rcases hs2 : c.store with _ | ⟨kv₀, t⟩
      · rw [hs2] at hfull
        simp at hfull
        omega
      · have htail : c.store.tail = t := by rw [hs2]; rfl
        have htsub : ∀ x, x ∈ t → x ∈ c.store := by
          intro x hx
          rw [hs2]
          exact List.mem_cons_of_mem kv₀ hx
        have htlen : t.length = c.max_size - 1 := by
          rw [hs2] at hfull
          simp only [List.length_cons] at hfull
          omega
        have htsorted : (t.map (fun kv => kv.2.created_at)).Pairwise (· < ·) := by
          rw [hs2] at h5
          simp only [List.map_cons] at h5
          exact (List.pairwise_cons.mp h5).2
        rw [htail] at e₂
        have hrec := ih (c.put start k r) (start + 1) (by rw [hmax₂]; exact h1)
          (by rw [e₂, hmax₂]; simp; omega)
          ((List.nodup_cons.mp h3).2)
          (by
            intro k₂ hk₂
            rw [e₂]
            simp only [List.map_append, List.map_cons, List.map_nil, List.mem_append,
              List.mem_cons, List.not_mem_nil]
            push_neg
            refine ⟨?_, ?_, fun h => h⟩
            · intro hmem
              obtain ⟨x, hx, hxeq⟩ := List.mem_map.mp hmem
              exact h4 k₂ (List.mem_cons_of_mem k hk₂)
                (List.mem_map.mpr ⟨x, htsub x hx, hxeq⟩)
            · intro he
              exact (List.nodup_cons.mp h3).1 (he ▸ hk₂))
          (by
            rw [e₂]
            simp only [List.map_append, List.map_cons, List.map_nil]
            rw [List.pairwise_append]
            refine ⟨htsorted, by simp, ?_⟩
            intro x hx y hy
            simp only [List.mem_cons, List.not_mem_nil, or_false] at hy
            subst hy
            obtain ⟨kv, hkv, hkveq⟩ := List.mem_map.mp hx
            exact hkveq ▸ h6 kv (htsub kv hkv))
          (by
            intro kv hkv
            rw [e₂] at hkv
            rcases List.mem_append.mp hkv with h | h
            · have := h6 kv (htsub kv h)
              omega
            · simp only [List.mem_cons, List.not_mem_nil, or_false] at h
              subst h
              exact lt_add_one start)
          (by
            intro kv hkv
            rw [httl₂]
            rw [e₂] at hkv
            rcases List.mem_append.mp hkv with h | h
            · have := h7 kv (htsub kv h)
              rw [hlen_key] at this
              omega
            · simp only [List.mem_cons, List.not_mem_nil, or_false] at h
              subst h
              show start + 1 + (ks.length : Int) - 1 - start ≤ c.ttl
              rw [hlen_key] at h8
              omega)
          (by
            rw [httl₂]
            rw [hlen_key] at h8
            omega)
        rw [hmax₂, e₂] at hrec
        rw [hrec]
        simp only [List.map_append, List.map_cons, List.map_nil]
        rw [List.append_assoc]
        have hle : c.max_size ≤ (t.map Prod.fst ++ (k :: ks)).length := by
          simp only [List.length_append, List.length_map, List.length_cons]
          omega
        conv_rhs => rw [List.cons_append]
        rw [lastKeys_cons_of_le c.max_size kv₀.1 _ hle]
        simp

/-- C3.  The cache invariant under `get` and `put`: `get` never returns an
entry whose age strictly exceeds the TTL, and deletes an expired entry it
finds; after any `put` (with a positive configured capacity) the store
size is at most the capacity; eviction removes an entry of smallest
`created_at` first; and inserting `N + 2` distinct keys into an empty
cache of capacity `N` (within the TTL) leaves exactly the `N`
most-recently-inserted keys, in order, so the size is exactly `N`. -/
theorem C3_cache_invariants :
    (∀ (c : MediaCache) (now : Int) (url : String) (res : ScrapedMedia) (c₂ : MediaCache),
      c.get now url = (some res, c₂) →
        ∃ e, c.store.lookup url = some e ∧ now - e.created_at ≤ c.ttl ∧
          e.result = res ∧ c₂ = c) ∧
    (∀ (c : MediaCache) (now : Int) (url : String) (e : CacheEntry),
      c.store.lookup url = some e → now - e.created_at > c.ttl →
        (c.get now url).1 = none ∧ (c.get now url).2.store.lookup url = none) ∧
    (∀ (c : MediaCache) (now : Int) (url : String) (r : ScrapedMedia),
      1 ≤ c.max_size → (c.put now url r).store.length ≤ c.max_size) ∧
    (∀ l : List (String × CacheEntry), l ≠ [] →
      ∃ pre suf e, l = pre ++ e :: suf ∧ removeOldest l = pre ++ suf ∧
        ∀ kv ∈ l, e.2.created_at ≤ kv.2.created_at) ∧
    (∀ (N : Nat) (ttl : Int) (keys : List String) (r : ScrapedMedia),
      1 ≤ N → keys.Nodup → keys.length = N + 2 → (N : Int) + 2 ≤ ttl →
        ((MediaCache.empty ttl N).runPuts 0 r keys).store.map Prod.fst = keys.drop 2 ∧
        ((MediaCache.empty ttl N).runPuts 0 r keys).store.length = N) := by
  refine ⟨?_, ?_, ?_, ?_, ?_⟩
  · intro c now url res c₂ h
    cases hl : c.store.lookup url with
    | none =>
      rw [MediaCache.get, hl] at h
      simp at h
    | some e =>
      rw [MediaCache.get, hl] at h
      dsimp only at h
      by_cases ht : now - e.created_at > c.ttl
      · rw [if_pos ht] at h
        simp at h
      · rw [if_neg ht] at h
        obtain ⟨h₁, h₂⟩ := Prod.mk.injEq .. ▸ h
        refine ⟨e, rfl, by omega, ?_, h₂.symm⟩
        exact Option.some_inj.mp h₁
  · intro c now url e hl ht
    rw [MediaCache.get, hl]
    dsimp only
    rw [if_pos ht]
    exact ⟨rfl, lookup_eraseKey url c.store⟩
  · intro c now url r hmax
    rw [put_store_eq]
    calc (setKey url ⟨r, now⟩ (trimStore c.max_size (purgeExpired c.ttl now c.store))).length
        ≤ (trimStore c.max_size (purgeExpired c.ttl now c.store)).length + 1 :=
          setKey_length url ⟨r, now⟩ _
      _ ≤ c.max_size := by
          have := trimStore_length c.max_size (purgeExpired c.ttl now c.store) hmax
          omega
  · exact removeOldest_spec
  · intro N ttl keys r hN hnd hlen httl
    have h := runPuts_spec r keys (MediaCache.empty ttl N) 0
      hN (by simp [MediaCache.empty]) hnd
      (by intro k hk; simp [MediaCache.empty])
      (by simp [MediaCache.empty])
      (by intro kv hkv; simp [MediaCache.empty] at hkv)
      (by intro kv hkv; simp [MediaCache.empty] at hkv)
      (by
        show (keys.length : Int) - 1 ≤ ttl
        rw [hlen]
        push_cast
        omega)
    have hkeys : ((MediaCache.empty ttl N).runPuts 0 r keys).store.map Prod.fst
        = keys.drop 2 := by
      rw [h]
      show lastKeys N ([] ++ keys) = keys.drop 2
      rw [List.nil_append]
      unfold lastKeys
      rw [hlen]
      have h2 : N + 2 - N = 2 := by omega
      rw [h2]
    refine ⟨hkeys, ?_⟩
    have hl := congrArg List.length hkeys
    simp only [List.length_map, List.length_drop] at hl
    rw [hlen] at hl
    omega

/-- Witness for C3: capacity 1, TTL 10, keys `a`, `b`, `c` — only `c`
survives; and a concrete `put` stays within capacity. -/
theorem C3_cache_invariants_witness :
    ((MediaCache.empty 10 1).runPuts 0 (placeholderResult .twitter "u")
        ["a", "b", "c"]).store.map Prod.fst = ["a", "b", "c"].drop 2 ∧
    ((MediaCache.empty 10 1).put 0 "x" (placeholderResult .twitter "u")).store.length
      ≤ (MediaCache.empty 10 1).max_size := by
  constructor
  · exact (C3_cache_invariants.2.2.2.2 1 10 ["a", "b", "c"]
      (placeholderResult .twitter "u") (by decide) (by decide) (by decide) (by decide)).1
  · exact C3_cache_invariants.2.2.1 (MediaCache.empty 10 1) 0 "x"
      (placeholderResult .twitter "u") (by decide)

/-! ### Query-cleaning lemmas (towards C8) -/

theorem mem_urlencodeDoseq (k v : String) (gs : List (String × List String)) :
    (k, v) ∈ urlencodeDoseq gs ↔ ∃ g ∈ gs, k = g.1 ∧ v ∈ g.2 := by
  simp only [urlencodeDoseq, List.mem_flatMap, List.mem_map]
  constructor
  · rintro ⟨g, hg, v₂, hv₂, heq⟩
    obtain ⟨h₁, h₂⟩ := Prod.mk.injEq .. ▸ heq
    exact ⟨g, hg, h₁.symm, h₂ ▸ hv₂⟩
  · rintro ⟨g, hg, hk, hv⟩
    exact ⟨g, hg, v, hv, by rw [hk]⟩

theorem mem_urlencode_insertPair (k v k₂ v₂ : String) :
    ∀ acc : List (String × List String),
      ((k, v) ∈ urlencodeDoseq (insertPair k₂ v₂ acc) ↔
        ((k, v) ∈ urlencodeDoseq acc ∨ (k = k₂ ∧ v = v₂))) := by
  intro acc
  induction acc with
  | nil =>
    simp [insertPair, mem_urlencodeDoseq]
  | cons g rest ih =>
    obtain ⟨k₃, vs⟩ := g
    by_cases h : k₃ = k₂
    · subst h
      simp only [insertPair, if_pos rfl]
      rw [mem_urlencodeDoseq, mem_urlencodeDoseq]
      constructor
      · rintro ⟨g, hg, hk, hv⟩
        rcases List.mem_cons.mp hg with hg | hg
        · subst hg
          simp only at hk hv
          rcases List.mem_append.mp hv with hv | hv
          · exact Or.inl ⟨(k₃, vs), List.mem_cons_self _ _, hk, hv⟩
          · simp only [List.mem_cons, List.not_mem_nil, or_false] at hv
            exact Or.inr ⟨hk, hv⟩
        · exact Or.inl ⟨g, List.mem_cons_of_mem _ hg, hk, hv⟩
      · rintro (⟨g, hg, hk, hv⟩ | ⟨hk, hv⟩)
        · rcases List.mem_cons.mp hg with hg | hg
          · subst hg
            exact ⟨(k₃, vs ++ [v₂]), List.mem_cons_self _ _, hk,
              List.mem_append_left _ hv⟩
          · exact ⟨g, List.mem_cons_of_mem _ hg, hk, hv⟩
        · refine ⟨(k₃, vs ++ [v₂]), List.mem_cons_self _ _, hk,
            List.mem_append_right _ ?_⟩
          rw [hv]
          exact List.mem_cons_self _ _
    · simp only [insertPair, if_neg h]
      rw [mem_urlencodeDoseq, mem_urlencodeDoseq]
      constructor
      · rintro ⟨g, hg, hk, hv⟩
        rcases List.mem_cons.mp hg with hg | hg
        · exact Or.inl ⟨g, hg ▸ List.mem_cons_self _ _, hk, hv⟩
        · rcases (mem_urlencodeDoseq k v _).mp
            ((mem_urlencodeDoseq k v _).mpr ⟨g, hg, hk, hv⟩) with h₂
          rcases (ih.mp ((mem_urlencodeDoseq k v _).mpr ⟨g, hg, hk, hv⟩)) with h₃ | h₃
          · rcases (mem_urlencodeDoseq k v rest).mp h₃ with ⟨g₂, hg₂, hk₂, hv₂⟩
            exact Or.inl ⟨g₂, List.mem_cons_of_mem _ hg₂, hk₂, hv₂⟩
          · exact Or.inr h₃
      · rintro (⟨g, hg, hk, hv⟩ | ⟨hk, hv⟩)
        · rcases List.mem_cons.mp hg with hg | hg
          · exact ⟨g, hg ▸ List.mem_cons_self _ _, hk, hv⟩
          · rcases (mem_urlencodeDoseq k v _).mp
              (ih.mpr (Or.inl ((mem_urlencodeDoseq k v rest).mpr ⟨g, hg, hk, hv⟩)))
              with ⟨g₂, hg₂, hk₂, hv₂⟩
            exact ⟨g₂, List.mem_cons_of_mem _ hg₂, hk₂, hv₂⟩
        · rcases (mem_urlencodeDoseq k v _).mp (ih.mpr (Or.inr ⟨hk, hv⟩))
            with ⟨g₂, hg₂, hk₂, hv₂⟩
          exact ⟨g₂, List.mem_cons_of_mem _ hg₂, hk₂, hv₂⟩

theorem mem_urlencode_parse_qs (k v : String) :
    ∀ (pairs : List (String × String)) (acc : List (String × List String)),
      ((k, v) ∈ urlencodeDoseq (pairs.foldl
          (fun acc p => if p.2 = "" then acc else insertPair p.1 p.2 acc) acc) ↔
        ((k, v) ∈ urlencodeDoseq acc ∨ ((k, v) ∈ pairs ∧ v ≠ ""))) := by
  intro pairs
  induction pairs with
  | nil => simp
  | cons p rest ih =>
    intro acc
    obtain ⟨k₂, v₂⟩ := p
    simp only [List.foldl_cons]
    by_cases h : v₂ = ""
    · rw [if_pos h, ih acc]
      subst h
      constructor
      · rintro (h₂ | h₂)
        · exact Or.inl h₂
        · exact Or.inr ⟨List.mem_cons_of_mem _ h₂.1, h₂.2⟩
      · rintro (h₂ | ⟨h₂, h₃⟩)
        · exact Or.inl h₂
        · rcases List.mem_cons.mp h₂ with h₄ | h₄
          · obtain ⟨hk, hv⟩ := Prod.mk.injEq .. ▸ h₄
            exact absurd hv h₃
          · exact Or.inr ⟨h₄, h₃⟩
    · rw [if_neg h, ih (insertPair k₂ v₂ acc)]
      rw [mem_urlencode_insertPair]
      constructor
      · rintro ((h₂ | ⟨hk, hv⟩) | h₂)
        · exact Or.inl h₂
        · subst hk
          subst hv
          exact Or.inr ⟨List.mem_cons_self _ _, h⟩
        · exact Or.inr ⟨List.mem_cons_of_mem _ h₂.1, h₂.2⟩
      · rintro (h₂ | ⟨h₂, h₃⟩)
        · exact Or.inl (Or.inl h₂)
        · rcases List.mem_cons.mp h₂ with h₄ | h₄
          · obtain ⟨hk, hv⟩ := Prod.mk.injEq .. ▸ h₄
            exact Or.inl (Or.inr ⟨hk, hv⟩)
          · exact Or.inr ⟨h₄, h₃⟩

theorem insertPair_keys (k v : String) :
    ∀ acc : List (String × List String),
      (insertPair k v acc).map Prod.fst =
        if k ∈ acc.map Prod.fst then acc.map Prod.fst else acc.map Prod.fst ++ [k] := by
  intro acc
  induction acc with
  | nil => simp [insertPair]
  | cons g rest ih =>
    obtain ⟨k₃, vs⟩ := g
    by_cases h : k₃ = k
    · subst h
      simp [insertPair]
    · simp only [insertPair, if_neg h, List.map_cons, ih]
      by_cases hm : k ∈ rest.map Prod.fst
      · rw [if_pos hm, if_pos (List.mem_cons_of_mem _ hm)]
      · rw [if_neg hm, if_neg ?hnot]
        · simp
        case hnot =>
          intro hmem
          rcases List.mem_cons.mp hmem with he | he
          · exact h he.symm
          · exact hm he

theorem parse_qs_keys_nodup_aux :
    ∀ (pairs : List (String × String)) (acc : List (String × List String)),
      (acc.map Prod.fst).Nodup →
      ((pairs.foldl (fun acc p => if p.2 = "" then acc else insertPair p.1 p.2 acc)
          acc).map Prod.fst).Nodup := by
  intro pairs
  induction pairs with
  | nil => intro acc h; simpa using h
  | cons p rest ih =>
    intro acc h
    simp only [List.foldl_cons]
    by_cases hb : p.2 = ""
    · rw [if_pos hb]
      exact ih acc h
    · rw [if_neg hb]
      refine ih (insertPair p.1 p.2 acc) ?_
      rw [insertPair_keys]
      by_cases hm : p.1 ∈ acc.map Prod.fst
      · rw [if_pos hm]
        exact h
      · rw [if_neg hm]
        rw [List.nodup_append]
        exact ⟨h, List.nodup_singleton _, by simpa using hm⟩

theorem parse_qs_keys_nodup (q : List (String × String)) :
    ((parse_qs q).map Prod.fst).Nodup :=
  parse_qs_keys_nodup_aux q [] (by simp)

theorem insertPair_groups (k v : String) (hv : v ≠ "") :
    ∀ acc : List (String × List String),
      (∀ g ∈ acc, g.2 ≠ [] ∧ ∀ w ∈ g.2, w ≠ "") →
      ∀ g ∈ insertPair k v acc, g.2 ≠ [] ∧ ∀ w ∈ g.2, w ≠ "" := by
  intro acc
  induction acc with
  | nil =>
    intro _ g hg
    simp only [insertPair, List.mem_cons, List.not_mem_nil, or_false] at hg
    subst hg
    exact ⟨by simp, by simpa using hv⟩
  | cons g₀ rest ih =>
    intro h g hg
    obtain ⟨k₃, vs⟩ := g₀
    by_cases he : k₃ = k
    · subst he
      simp only [insertPair, if_pos rfl] at hg
      cases hg with
      | head =>
        obtain ⟨h₁, h₂⟩ := h (k₃, vs) (List.mem_cons_self _ _)
        refine ⟨by simp, ?_⟩
        intro w hw
        rcases List.mem_append.mp hw with hw | hw
        · exact h₂ w hw
        · simp only [List.mem_cons, List.not_mem_nil, or_false] at hw
          exact hw ▸ hv
      | tail _ hg => exact h g (List.mem_cons_of_mem _ hg)
    · simp only [insertPair, if_neg he] at hg
      cases hg with
      | head => exact h (k₃, vs) (List.mem_cons_self _ _)
      | tail _ hg => exact ih (fun g₂ hg₂ => h g₂ (List.mem_cons_of_mem _ hg₂)) g hg

theorem parse_qs_groups_aux :
    ∀ (pairs : List (String × String)) (acc : List (String × List String)),
      (∀ g ∈ acc, g.2 ≠ [] ∧ ∀ w ∈ g.2, w ≠ "") →
      ∀ g ∈ pairs.foldl (fun acc p => if p.2 = "" then acc else insertPair p.1 p.2 acc) acc,
        g.2 ≠ [] ∧ ∀ w ∈ g.2, w ≠ "" := by
  intro pairs
  induction pairs with
  | nil => intro acc h; simpa using h
  | cons p rest ih =>
    intro acc h
    simp only [List.foldl_cons]
    by_cases hb : p.2 = ""
    · rw [if_pos hb]
      exact ih acc h
    · rw [if_neg hb]
      exact ih (insertPair p.1 p.2 acc) (insertPair_groups p.1 p.2 hb acc h)

theorem parse_qs_groups (q : List (String × String)) :
    ∀ g ∈ parse_qs q, g.2 ≠ [] ∧ ∀ w ∈ g.2, w ≠ "" :=
  parse_qs_groups_aux q [] (by simp)

theorem insertPair_of_not_mem (k v : String) :
    ∀ acc : List (String × List String), k ∉ acc.map Prod.fst →
      insertPair k v acc = acc ++ [(k, [v])] := by
  intro acc
  induction acc with
  | nil => intro _; rfl
  | cons g rest ih =>
    intro h
    obtain ⟨k₃, vs⟩ := g
    simp only [List.map_cons, List.mem_cons] at h
    push_neg at h
    simp only [insertPair, List.cons_append]
    rw [if_neg (fun he => h.1 he.symm), ih h.2]

theorem insertPair_append_last (k v : String) (ws : List String) :
    ∀ acc : List (String × List String), k ∉ acc.map Prod.fst →
      insertPair k v (acc ++ [(k, ws)]) = acc ++ [(k, ws ++ [v])] := by
  intro acc
  induction acc with
  | nil =>
    intro _
    simp [insertPair]
  | cons g rest ih =>
    intro h
    obtain ⟨k₃, vs⟩ := g
    simp only [List.map_cons, List.mem_cons] at h
    push_neg at h
    simp only [List.cons_append, insertPair]
    rw [if_neg (fun he => h.1 he.symm)]
    congr 1
    exact ih h.2

theorem foldl_values_same_key (k : String) :
    ∀ (vs ws : List String) (acc : List (String × List String)),
      k ∉ acc.map Prod.fst → (∀ v ∈ vs, v ≠ "") →
      List.foldl (fun acc p => if p.2 = "" then acc else insertPair p.1 p.2 acc)
          (acc ++ [(k, ws)]) (vs.map (fun v => (k, v)))
        = acc ++ [(k, ws ++ vs)] := by
  intro vs
  induction vs with
  | nil =>
    intro ws acc _ _
    simp
  | cons v vs₂ ih =>
    intro ws acc hk hv
    simp only [List.map_cons, List.foldl_cons]
    rw [if_neg (hv v (List.mem_cons_self _ _))]
    rw [insertPair_append_last k v ws acc hk]
    rw [ih (ws ++ [v]) acc hk (fun w hw => hv w (List.mem_cons_of_mem _ hw))]
    simp

theorem parse_qs_reconstruct :
    ∀ (gs : List (String × List String)) (acc : List (String × List String)),
      (acc.map Prod.fst ++ gs.map Prod.fst).Nodup →
      (∀ g ∈ gs, g.2 ≠ [] ∧ ∀ w ∈ g.2, w ≠ "") →
      List.foldl (fun acc p => if p.2 = "" then acc else insertPair p.1 p.2 acc) acc
          (urlencodeDoseq gs) = acc ++ gs := by
  intro gs
  induction gs with
  | nil =>
    intro acc _ _
    simp [urlencodeDoseq]
  | cons g gs₂ ih =>
    intro acc hnd hgood
    obtain ⟨k, vs⟩ := g
    have hfresh : k ∉ acc.map Prod.fst := by
      intro hkmem
      have hnd₂ : (acc.map Prod.fst ++ (k :: gs₂.map Prod.fst)).Nodup := by
        simpa using hnd
      have hdisj := (List.nodup_append.mp hnd₂).2.2
      exact hdisj hkmem (List.mem_cons_self _ _)
    obtain ⟨hne, hvals⟩ := hgood (k, vs) (List.mem_cons_self _ _)
    have hsplit : urlencodeDoseq ((k, vs) :: gs₂)
        = vs.map (fun v => (k, v)) ++ urlencodeDoseq gs₂ := by
      simp [urlencodeDoseq]
    rw [hsplit, List.foldl_append]
    rcases hvs : vs with _ | ⟨v, vs₃⟩
    · exact absurd hvs hne
    · have hvals₂ : ∀ w ∈ vs₃, w ≠ "" := by
        intro w hw
        exact hvals w (hvs ▸ List.mem_cons_of_mem _ hw)
      have h₁ : List.foldl (fun acc p => if p.2 = "" then acc else insertPair p.1 p.2 acc)
          acc ((v :: vs₃).map (fun v => (k, v))) = acc ++ [(k, v :: vs₃)] := by
        simp only [List.map_cons, List.foldl_cons]
        rw [if_neg (hvals v (hvs ▸ List.mem_cons_self _ _))]
        rw [insertPair_of_not_mem k v acc hfresh]
        rw [foldl_values_same_key k vs₃ [v] acc hfresh hvals₂]
        simp
      rw [h₁]
      rw [ih (acc ++ [(k, v :: vs₃)])
        (by
          simp only [List.map_append, List.map_cons, List.map_nil]
          have : acc.map Prod.fst ++ [k] ++ gs₂.map Prod.fst
              = acc.map Prod.fst ++ (k :: gs₂.map Prod.fst) := by
            simp
          rw [this]
          simpa using hnd)
        (fun g₂ hg₂ => hgood g₂ (List.mem_cons_of_mem _ hg₂))]
      simp

theorem parse_qs_urlencodeDoseq (gs : List (String × List String))
    (hnd : (gs.map Prod.fst).Nodup)
    (hgood : ∀ g ∈ gs, g.2 ≠ [] ∧ ∀ w ∈ g.2, w ≠ "") :
    parse_qs (urlencodeDoseq gs) = gs := by
  have h := parse_qs_reconstruct gs [] (by simpa using hnd) hgood
  simpa [parse_qs] using h

theorem cleanQuery_reddit_idem (q : List (String × String)) :
    cleanQuery .reddit (cleanQuery .reddit q) = cleanQuery .reddit q := by
  have hnd : (((parse_qs q).filter (fun g => ¬ isTrackingKey g.1)).map Prod.fst).Nodup :=
    (parse_qs_keys_nodup q).sublist (List.Sublist.map Prod.fst (List.filter_sublist _))
  have hgood : ∀ g ∈ (parse_qs q).filter (fun g => ¬ isTrackingKey g.1),
      g.2 ≠ [] ∧ ∀ w ∈ g.2, w ≠ "" := by
    intro g hg
    exact parse_qs_groups q g (List.mem_of_mem_filter hg)
  show urlencodeDoseq ((parse_qs (urlencodeDoseq
      ((parse_qs q).filter (fun g => ¬ isTrackingKey g.1)))).filter
        (fun g => ¬ isTrackingKey g.1))
    = urlencodeDoseq ((parse_qs q).filter (fun g => ¬ isTrackingKey g.1))
  rw [parse_qs_urlencodeDoseq _ hnd hgood]
  rw [List.filter_filter]
  congr 1
  apply List.filter_congr
  intro g hg
  simp

theorem mem_urlencode_parse_qs_nil (k v : String) (q : List (String × String)) :
    (k, v) ∈ urlencodeDoseq (parse_qs q) ↔ ((k, v) ∈ q ∧ v ≠ "") := by
  have h := mem_urlencode_parse_qs k v q []
  simpa [parse_qs, urlencodeDoseq] using h

/-- C8, counterexample.  The claim says `detect` strips exactly the
denylisted tracking parameters and preserves every other query parameter.
On a Reddit URL the code round-trips the query through `parse_qs`, which
drops parameters with a blank value: `foo=` is not in the denylist yet is
stripped, so the cleaned query differs from the strip-exactly-the-denylist
transform stated by the claim. -/
theorem C8_counterexample :
    cleanQuery .reddit [("foo", ""), ("bar", "1")] = [("bar", "1")] ∧
    specCleanQuery [("foo", ""), ("bar", "1")] = [("foo", ""), ("bar", "1")] ∧
    cleanQuery .reddit [("foo", ""), ("bar", "1")]
      ≠ specCleanQuery [("foo", ""), ("bar", "1")] := by
  refine ⟨by decide, by decide, by decide⟩

/-- C8, amended.  For Reddit URLs the cleaned query contains exactly the
pairs of the original whose key is not denylisted (`utm_*`, `share`,
`context`) and whose value is non-blank (the `parse_qs` round trip also
drops blank-valued parameters and regroups duplicate keys); for TikTok the
whole query is removed; other platforms' URLs pass through unchanged; and
the URL cleaning never touches the non-query part and is idempotent on its
own output. -/
theorem C8_clean_url_characterization (q : List (String × String)) :
    (∀ k v, (k, v) ∈ cleanQuery .reddit q ↔
      ((k, v) ∈ q ∧ v ≠ "" ∧ isTrackingKey k = false)) ∧
    cleanQuery .tiktok q = [] ∧
    (∀ p : Platform, p ≠ .reddit → p ≠ .tiktok → cleanQuery p q = q) ∧
    (∀ (p : Platform) (u : Url),
      clean_url p (clean_url p u) = clean_url p u ∧ (clean_url p u).base = u.base) := by
  refine ⟨?_, rfl, ?_, ?_⟩
  · intro k v
    show (k, v) ∈ urlencodeDoseq ((parse_qs q).filter (fun g => ¬ isTrackingKey g.1)) ↔ _
    rw [mem_urlencodeDoseq]
    constructor
    · rintro ⟨g, hg, hk, hv⟩
      have hgm : g ∈ parse_qs q := List.mem_of_mem_filter hg
      have hpred : isTrackingKey g.1 = false := by
        have := List.of_mem_filter hg
        simpa using this
      have hq : (k, v) ∈ q ∧ v ≠ "" :=
        (mem_urlencode_parse_qs_nil k v q).mp
          ((mem_urlencodeDoseq k v (parse_qs q)).mpr ⟨g, hgm, hk, hv⟩)
      exact ⟨hq.1, hq.2, by rw [hk]; exact hpred⟩
    · rintro ⟨hq, hv, htrack⟩
      obtain ⟨g, hg, hk, hvg⟩ := (mem_urlencodeDoseq k v (parse_qs q)).mp
        ((mem_urlencode_parse_qs_nil k v q).mpr ⟨hq, hv⟩)
      refine ⟨g, List.mem_filter.mpr ⟨hg, ?_⟩, hk, hvg⟩
      rw [hk] at htrack
      simp [htrack]
  · intro p h₁ h₂
    cases p
    · rfl
    · rfl
    · rfl
    · exact absurd rfl h₂
    · rfl
    · rfl
    · exact absurd rfl h₁
  · intro p u
    refine ⟨?_, rfl⟩
    cases p
    case reddit =>
      show Url.mk u.base (cleanQuery .reddit (cleanQuery .reddit u.query))
        = Url.mk u.base (cleanQuery .reddit u.query)
      rw [cleanQuery_reddit_idem]
    all_goals rfl

/-- Witness for C8: a non-denylisted pair with a non-blank value survives
Reddit cleaning, and a Twitter query passes through untouched. -/
theorem C8_clean_url_characterization_witness :
    ("bar", "1") ∈ cleanQuery .reddit [("foo", ""), ("bar", "1")] ∧
    cleanQuery .twitter [("a", "1")] = [("a", "1")] := by
  constructor
  · exact ((C8_clean_url_characterization [("foo", ""), ("bar", "1")]).1 "bar" "1").mpr
      ⟨by decide, by decide, by decide⟩
  · exact (C8_clean_url_characterization [("a", "1")]).2.2.1 .twitter
      (by decide) (by decide)

/-- C9, counterexample.  The semaphore is created inside `download_media`,
so each invocation owns its own permits.  With the configured
`concurrent_downloads = 3`, an event-loop interleaving in which one
invocation is running 3 fetches and a second invocation starts one more is
reachable: 4 fetches run concurrently across the process, exceeding the
claimed global bound of 3. -/
theorem C9_counterexample :
    DlReachable 3 [⟨3, 0, 3, 0, 0, false⟩, ⟨1, 0, 1, 0, 2, false⟩] ∧
    totalRunning [⟨3, 0, 3, 0, 0, false⟩, ⟨1, 0, 1, 0, 2, false⟩] = 4 ∧
    3 < totalRunning [⟨3, 0, 3, 0, 0, false⟩, ⟨1, 0, 1, 0, 2, false⟩] := by
  refine ⟨?_, by decide, by decide⟩
  have h1 : DlStep 3 [] [⟨3, 3, 0, 0, 3, false⟩] := DlStep.call [] 3
  have h2 : DlStep 3 [⟨3, 3, 0, 0, 3, false⟩] [⟨3, 2, 1, 0, 2, false⟩] :=
    DlStep.start [] [] ⟨3, 3, 0, 0, 3, false⟩ (by decide) (by decide)
  have h3 : DlStep 3 [⟨3, 2, 1, 0, 2, false⟩] [⟨3, 1, 2, 0, 1, false⟩] :=
    DlStep.start [] [] ⟨3, 2, 1, 0, 2, false⟩ (by decide) (by decide)
  have h4 : DlStep 3 [⟨3, 1, 2, 0, 1, false⟩] [⟨3, 0, 3, 0, 0, false⟩] :=
    DlStep.start [] [] ⟨3, 1, 2, 0, 1, false⟩ (by decide) (by decide)
  have h5 : DlStep 3 [⟨3, 0, 3, 0, 0, false⟩]
      [⟨3, 0, 3, 0, 0, false⟩, ⟨1, 1, 0, 0, 3, false⟩] :=
    DlStep.call [⟨3, 0, 3, 0, 0, false⟩] 1
  have h6 : DlStep 3 [⟨3, 0, 3, 0, 0, false⟩, ⟨1, 1, 0, 0, 3, false⟩]
      [⟨3, 0, 3, 0, 0, false⟩, ⟨1, 0, 1, 0, 2, false⟩] :=
    DlStep.start [⟨3, 0, 3, 0, 0, false⟩] [] ⟨1, 1, 0, 0, 3, false⟩ (by decide) (by decide)
  exact Relation.ReflTransGen.head h1 (Relation.ReflTransGen.head h2
    (Relation.ReflTransGen.head h3 (Relation.ReflTransGen.head h4
      (Relation.ReflTransGen.head h5 (Relation.ReflTransGen.single h6)))))

/-- C9, amended.  The concurrency bound is per invocation, not global: in
every reachable state each in-flight `download_media` invocation satisfies
the semaphore identity `running + semAvail = m`, so at most `m` of its
fetches run concurrently, its item accounting `running + pending + done =
items` holds, and an invocation that has returned (the `gather` join) has
every item completed or dropped and nothing pending or running. -/
theorem C9_per_invocation_bound (m : Nat) (s : DlState) (h : DlReachable m s) :
    ∀ i ∈ s, i.running + i.semAvail = m ∧
      i.running + i.pending + i.done = i.items ∧
      i.running ≤ m ∧
      (i.returned = true → i.done = i.items ∧ i.pending = 0 ∧ i.running = 0) := by
  induction h with
  | refl =>
    intro i hi
    simp at hi
  | tail hab hbc ih =>
    cases hbc with
    | call s₂ n =>
      intro i hi
      rcases List.mem_append.mp hi with hi | hi
      · exact ih i hi
      · simp only [List.mem_cons, List.not_mem_nil, or_false] at hi
        subst hi
        refine ⟨by simp, by simp, by simp, ?_⟩
        intro hc
        simp at hc
    | start pre post i₀ hp hs =>
      intro j hj
      rcases List.mem_append.mp hj with hj | hj
      · exact ih j (List.mem_append_left _ hj)
      · rcases List.mem_cons.mp hj with hj | hj
        · subst hj
          obtain ⟨e₁, e₂, e₃, e₄⟩ :=
            ih i₀ (List.mem_append_right _ (List.mem_cons_self _ _))
          refine ⟨by simp; omega, by simp; omega, by simp; omega, ?_⟩
          intro hr
          simp only at hr
          obtain ⟨_, hp0, _⟩ := e₄ hr
          omega
        · exact ih j (List.mem_append_right _ (List.mem_cons_of_mem _ hj))
    | finish pre post i₀ hr =>
      intro j hj
      rcases List.mem_append.mp hj with hj | hj
      · exact ih j (List.mem_append_left _ hj)
      · rcases List.mem_cons.mp hj with hj | hj
        · subst hj
          obtain ⟨e₁, e₂, e₃, e₄⟩ :=
            ih i₀ (List.mem_append_right _ (List.mem_cons_self _ _))
          refine ⟨by simp; omega, by simp; omega, by simp; omega, ?_⟩
          intro hret
          simp only at hret
          obtain ⟨_, _, hr0⟩ := e₄ hret
          omega
        · exact ih j (List.mem_append_right _ (List.mem_cons_of_mem _ hj))
    | ret pre post i₀ hp hr hn =>
      intro j hj
      rcases List.mem_append.mp hj with hj | hj
      · exact ih j (List.mem_append_left _ hj)
      · rcases List.mem_cons.mp hj with hj | hj
        · subst hj
          obtain ⟨e₁, e₂, e₃, _⟩ :=
            ih i₀ (List.mem_append_right _ (List.mem_cons_self _ _))
          refine ⟨by simpa using e₁, by simpa using e₂, by simpa using e₃, ?_⟩
          intro _
          refine ⟨?_, hp, hr⟩
          simp only
          omega
        · exact ih j (List.mem_append_right _ (List.mem_cons_of_mem _ hj))

/-- Witness for C9: a concrete reachable state with one invocation of two
items, one fetch running, respects the per-invocation semaphore
identity. -/
theorem C9_per_invocation_bound_witness :
    (⟨2, 1, 1, 0, 2, false⟩ : Invocation).running +
      (⟨2, 1, 1, 0, 2, false⟩ : Invocation).semAvail = 3 ∧
    (⟨2, 1, 1, 0, 2, false⟩ : Invocation).running ≤ 3 := by
  have hreach : DlReachable 3 [⟨2, 1, 1, 0, 2, false⟩] := by
    have h1 : DlStep 3 [] [⟨2, 2, 0, 0, 3, false⟩] := DlStep.call [] 2
    have h2 : DlStep 3 [⟨2, 2, 0, 0, 3, false⟩] [⟨2, 1, 1, 0, 2, false⟩] :=
      DlStep.start [] [] ⟨2, 2, 0, 0, 3, false⟩ (by decide) (by decide)
    exact Relation.ReflTransGen.head h1 (Relation.ReflTransGen.single h2)
  have h := C9_per_invocation_bound 3 [⟨2, 1, 1, 0, 2, false⟩] hreach
    ⟨2, 1, 1, 0, 2, false⟩ (List.mem_cons_self _ _)
  exact ⟨h.1, h.2.2.1⟩

end Fuuka
